import Mathlib

/-!
Shallow embedding of the Asaphus coding-challenge game
(asaphus_coding_challenge.cpp) and a verification of its specification.

The program simulates a two-player game over four boxes.  Each box stores a
running `weight_` (a C++ double) and a deque `absorbed_weights_` of the token
weights it has absorbed.  Green boxes score the square of the mean of the up
to 3 most recently absorbed weights; blue boxes score Cantor's pairing
function of the smallest and largest weight absorbed so far.  Players A and B
alternate turns; on each turn the acting player lets the box of currently
minimal weight absorb the next input token.

C++ doubles are modelled as exact rationals (ℚ); all the arithmetic the
program performs in the verified scenarios is exact.  The deque is modelled
as a list whose head is the deque front and whose last element is the deque
back.  Input token weights are `uint32_t` values, modelled as ℕ and cast to
ℚ on absorption exactly as the code casts them to double.
-/

/-- The `Box` class: `weight_` is the running total weight, and
`absorbed_weights_` is the `std::deque<double>` of absorbed token weights
(head = front, last = back).  No variant tag is stored. -/
structure Box where
  weight_ : ℚ
  absorbed_weights_ : List ℚ
deriving DecidableEq

/-- A default box, used only to totalise list indexing. -/
def defaultBox : Box := ⟨0, []⟩

/-- `Box::calculateScoreForGreenBox`: push the new weight to the back of the
deque, pop the front if the deque now holds more than 3 elements, return the
square of the mean of the deque together with the updated box (the running
weight increased by the absorbed weight). -/
def Box.calculateScoreForGreenBox (b : Box) (weight : ℚ) : ℚ × Box :=
  let aw0 := b.absorbed_weights_ ++ [weight]
  let aw := if 3 < aw0.length then aw0.tail else aw0
  let mean := aw.sum / (aw.length : ℚ)
  (mean ^ 2, ⟨b.weight_ + weight, aw⟩)

/-- `Box::calculateScoreForBlueBox`: if the deque is empty push the weight;
otherwise push it to the front when it is below the front, to the back when
it is above the back, and leave the deque unchanged otherwise.  The score is
Cantor's pairing function of the deque's front (smallest) and back
(largest). -/
def Box.calculateScoreForBlueBox (b : Box) (weight : ℚ) : ℚ × Box :=
  let aw :=
    if b.absorbed_weights_.isEmpty then [weight]
    else if weight < b.absorbed_weights_.headD 0 then weight :: b.absorbed_weights_
    else if b.absorbed_weights_.getLastD 0 < weight then b.absorbed_weights_ ++ [weight]
    else b.absorbed_weights_
  let smallest := aw.headD 0
  let largest := aw.getLastD 0
  let sum := smallest + largest
  (sum * (sum + 1) / 2 + largest, ⟨b.weight_ + weight, aw⟩)

/-- `Box::makeGreenBox`: constructs a plain `Box` with the given initial
weight and empty history. -/
def Box.makeGreenBox (initial_weight : ℚ) : Box := ⟨initial_weight, []⟩

/-- `Box::makeBlueBox`: constructs a plain `Box` with the given initial
weight and empty history (the same constructor as for a green box). -/
def Box.makeBlueBox (initial_weight : ℚ) : Box := ⟨initial_weight, []⟩

/-- The minimum of the weights of a list of boxes (0 for the empty list,
which never occurs in the game). -/
def minBoxWeight : List Box → ℚ
  | [] => 0
  | b :: bs => bs.foldl (fun m c => min m c.weight_) b.weight_

/-- `std::min_element` over the boxes with comparator `*a < *b`
(`Box::operator<` compares `weight_`): the index of the FIRST box whose
weight is minimal (`min_element` replaces its running iterator only on a
strictly smaller element, so the earliest minimum wins). -/
def minElementIdx : List Box → ℕ
  | [] => 0
  | [_] => 0
  | b :: c :: bs =>
    if minBoxWeight (c :: bs) < b.weight_ then minElementIdx (c :: bs) + 1 else 0

/-- The `Player` class: a running score. -/
structure Player where
  score_ : ℚ
deriving DecidableEq

/-- `Player::takeTurn`: find the box of minimal weight (first minimum); if
its index is 0 or 1 apply green scoring, otherwise blue scoring; add the
returned score to the player's score.  Returns the updated player and box
list. -/
def Player.takeTurn (p : Player) (input_weight : ℕ) (boxes : List Box) :
    Player × List Box :=
  let index := minElementIdx boxes
  let box := boxes.getD index defaultBox
  if index = 0 ∨ index = 1 then
    let r := box.calculateScoreForGreenBox (input_weight : ℚ)
    (⟨p.score_ + r.1⟩, boxes.set index r.2)
  else
    let r := box.calculateScoreForBlueBox (input_weight : ℚ)
    (⟨p.score_ + r.1⟩, boxes.set index r.2)

/-- The state of a game in progress: the shared boxes and the two players. -/
structure GameState where
  boxes : List Box
  player_A : Player
  player_B : Player
deriving DecidableEq

/-- One iteration of the loop in `play`: player A acts on even indices,
player B on odd indices. -/
def playStep (s : GameState) (i : ℕ) (w : ℕ) : GameState :=
  if i % 2 = 0 then
    let r := s.player_A.takeTurn w s.boxes
    ⟨r.2, r.1, s.player_B⟩
  else
    let r := s.player_B.takeTurn w s.boxes
    ⟨r.2, s.player_A, r.1⟩

/-- The loop of `play`, processing the remaining input weights starting at
loop index `i`. -/
def playLoop : List ℕ → ℕ → GameState → GameState
  | [], _, s => s
  | w :: ws, i, s => playLoop ws (i + 1) (playStep s i w)

/-- The initial state built by `play`: green boxes of weight 0.0 and 0.1,
blue boxes of weight 0.2 and 0.3, both players at score 0. -/
def initialState : GameState :=
  ⟨[Box.makeGreenBox 0, Box.makeGreenBox (1/10),
    Box.makeBlueBox (2/10), Box.makeBlueBox (3/10)], ⟨0⟩, ⟨0⟩⟩

/-- `play`: run the whole game on the input weights and return the pair of
final scores (player A, player B). -/
def play (input_weights : List ℕ) : ℚ × ℚ :=
  let final := playLoop input_weights 0 initialState
  (final.player_A.score_, final.player_B.score_)

/-- The scores returned by a sequence of absorptions into a green box. -/
def greenScores : Box → List ℚ → List ℚ
  | _, [] => []
  | b, w :: ws =>
    let r := b.calculateScoreForGreenBox w
    r.1 :: greenScores r.2 ws

/-- The scores returned by a sequence of absorptions into a blue box. -/
def blueScores : Box → List ℚ → List ℚ
  | _, [] => []
  | b, w :: ws =>
    let r := b.calculateScoreForBlueBox w
    r.1 :: blueScores r.2 ws

/-- The box obtained after a sequence of absorptions into a blue box. -/
def blueState : Box → List ℚ → Box
  | b, [] => b
  | b, w :: ws => blueState (b.calculateScoreForBlueBox w).2 ws

/-- Cantor's pairing function, as given in the spec:
`pairing(a,b) = (a+b)(a+b+1)/2 + b`. -/
def pairing (a b : ℚ) : ℚ := (a + b) * (a + b + 1) / 2 + b

/-- The last `n` elements of a list (the whole list when it is shorter). -/
def lastN (n : ℕ) (l : List ℚ) : List ℚ := l.drop (l.length - n)

/-- A second description of `Player::takeTurn`, written from the words of
the refinement claim C10: the selected box is the first weight minimum;
green scoring is applied if and only if the selected index is 0 or 1
(expressed as `index ≤ 1`), blue scoring otherwise; the score is added and
the updated box is written back at the selected index. -/
def takeTurnPositionalSpec (p : Player) (input_weight : ℕ) (boxes : List Box) :
    Player × List Box :=
  let index := minElementIdx boxes
  let box := boxes.getD index defaultBox
  let r :=
    if index ≤ 1 then box.calculateScoreForGreenBox (input_weight : ℚ)
    else box.calculateScoreForBlueBox (input_weight : ℚ)
  (⟨p.score_ + r.1⟩, boxes.set index r.2)

/-! ### The green-box sliding window (claim C1) -/

lemma lastN_of_length_le {n : ℕ} {l : List ℚ} (h : l.length ≤ n) : lastN n l = l := by
  simp [lastN, Nat.sub_eq_zero_of_le h]

lemma length_lastN_of_le {n : ℕ} {l : List ℚ} (h : n ≤ l.length) :
    (lastN n l).length = n := by
  simp [lastN]; omega

lemma length_lastN_le (n : ℕ) (l : List ℚ) : (lastN n l).length ≤ n := by
  simp [lastN]; omega

lemma lastN_append_singleton (l : List ℚ) (w : ℚ) :
    lastN 3 (lastN 3 l ++ [w]) = lastN 3 (l ++ [w]) := by
  rcases le_or_lt l.length 3 with h | h
  · rw [lastN_of_length_le h]
  · calc lastN 3 (lastN 3 l ++ [w])
        = (lastN 3 l ++ [w]).drop ((lastN 3 l ++ [w]).length - 3) := rfl
      _ = (lastN 3 l ++ [w]).drop 1 := by
            congr 1
            simp only [List.length_append, length_lastN_of_le h.le,
              List.length_cons, List.length_nil]
      _ = (lastN 3 l).drop 1 ++ [w] :=
            List.drop_append_of_le_length (by rw [length_lastN_of_le h.le]; omega)
      _ = (l.drop (l.length - 3)).drop 1 ++ [w] := rfl
      _ = l.drop ((l.length - 3) + 1) ++ [w] := by rw [List.drop_drop]
      _ = l.drop (l.length - 2) ++ [w] := by congr 2; omega
      _ = (l ++ [w]).drop (l.length - 2) :=
            (List.drop_append_of_le_length (by omega)).symm
      _ = (l ++ [w]).drop ((l ++ [w]).length - 3) := by
            congr 1
            simp only [List.length_append, List.length_cons, List.length_nil]
            omega
      _ = lastN 3 (l ++ [w]) := rfl

lemma green_absorb_eq (wt w : ℚ) (h : List ℚ) (hh : h.length ≤ 3) :
    Box.calculateScoreForGreenBox ⟨wt, h⟩ w =
      (((lastN 3 (h ++ [w])).sum / ((lastN 3 (h ++ [w])).length : ℚ)) ^ 2,
        ⟨wt + w, lastN 3 (h ++ [w])⟩) := by
  have hw : lastN 3 (h ++ [w]) =
      if 3 < (h ++ [w]).length then (h ++ [w]).tail else (h ++ [w]) := by
    rcases Nat.lt_or_ge h.length 3 with h3 | h3
    · rw [if_neg (by simp; omega), lastN_of_length_le (by simp; omega)]
    · have he : h.length = 3 := le_antisymm hh h3
      rw [if_pos (by simp [he])]
      show (h ++ [w]).drop ((h ++ [w]).length - 3) = _
      rw [List.length_append, he]
      simp [List.drop_one]
  simp only [Box.calculateScoreForGreenBox]
  rw [← hw]

lemma greenScores_getD (ws : List ℚ) :
    ∀ (p : List ℚ) (wt : ℚ) (k : ℕ), k < ws.length →
    (greenScores ⟨wt, lastN 3 p⟩ ws).getD k 0 =
      ((lastN 3 (p ++ ws.take (k + 1))).sum /
        ((lastN 3 (p ++ ws.take (k + 1))).length : ℚ)) ^ 2 := by
  induction ws with
  | nil => intro p wt k hk; simp at hk
  | cons w ws ih =>
    intro p wt k hk
    have hlen : (lastN 3 p).length ≤ 3 := length_lastN_le 3 p
    simp only [greenScores, green_absorb_eq wt w (lastN 3 p) hlen,
      lastN_append_singleton]
    cases k with
    | zero =>
      simp only [List.getD_cons_zero, List.take_succ_cons, List.take_zero]
    | succ j =>
      have hj : j < ws.length := by simpa using hk
      rw [List.getD_cons_succ, ih (p ++ [w]) (wt + w) j hj]
      rw [List.append_assoc]
      rfl

/-- C1: green-box scoring.  For every sequence of absorptions into a fresh
green box, the score returned on the k-th absorption (index `k` counts from
0, so the k-th absorption of the claim is index `k - 1`) equals the square
of the arithmetic mean of all absorbed weights when at most 3 have been
absorbed, and the square of the arithmetic mean of the 3 most recently
absorbed weights (FIFO window, oldest evicted) from the 4th absorption on. -/
theorem green_box_scoring (iw : ℚ) (ws : List ℚ) (k : ℕ) (hk : k < ws.length) :
    (greenScores (Box.makeGreenBox iw) ws).getD k 0 =
      if k + 1 ≤ 3 then ((ws.take (k + 1)).sum / ((k : ℚ) + 1)) ^ 2
      else ((lastN 3 (ws.take (k + 1))).sum / 3) ^ 2 := by
  have h0 : Box.makeGreenBox iw = (⟨iw, lastN 3 []⟩ : Box) := rfl
  rw [h0, greenScores_getD ws [] iw k hk, List.nil_append]
  have hlen : (ws.take (k + 1)).length = k + 1 := by rw [List.length_take]; omega
  rcases le_or_lt (k + 1) 3 with h | h
  · rw [if_pos h, lastN_of_length_le (by omega)]
    rw [hlen]
    push_cast
    ring_nf
  · rw [if_neg (by omega), length_lastN_of_le (by omega)]
    norm_num

/-- C1 witness: the theorem applied at a concrete input. -/
theorem green_box_scoring_witness :
    (greenScores (Box.makeGreenBox 0) [1, 2]).getD 1 0 =
      if 1 + 1 ≤ 3 then (([(1 : ℚ), 2].take (1 + 1)).sum / ((1 : ℚ) + 1)) ^ 2
      else ((lastN 3 ([(1 : ℚ), 2].take (1 + 1))).sum / 3) ^ 2 :=
  green_box_scoring 0 [1, 2] 1 (by norm_num)

/-! ### The blue-box min/max deque (claims C2 and C9) -/

lemma blue_absorb_step (b : Box) (v : ℚ)
    (hne : b.absorbed_weights_ ≠ [])
    (hmM : b.absorbed_weights_.headD 0 ≤ b.absorbed_weights_.getLastD 0) :
    (b.calculateScoreForBlueBox v).1 =
      pairing (min (b.absorbed_weights_.headD 0) v)
              (max (b.absorbed_weights_.getLastD 0) v) ∧
    (b.calculateScoreForBlueBox v).2.absorbed_weights_ ≠ [] ∧
    (b.calculateScoreForBlueBox v).2.absorbed_weights_.headD 0 =
      min (b.absorbed_weights_.headD 0) v ∧
    (b.calculateScoreForBlueBox v).2.absorbed_weights_.getLastD 0 =
      max (b.absorbed_weights_.getLastD 0) v := by
  obtain ⟨wt, aw⟩ := b
  cases aw with
  | nil => exact absurd rfl hne
  | cons x t =>
    simp only [List.headD_cons, List.getLastD_eq_getLast?] at hmM ⊢
    by_cases h1 : v < x
    · have hvM : v ≤ ((x :: t).getLast?).getD 0 := le_trans h1.le hmM
      simp only [Box.calculateScoreForBlueBox, List.isEmpty_cons, List.headD_cons,
        List.getLastD_eq_getLast?, Bool.false_eq_true, if_false, h1, if_true, if_pos]
      refine ⟨?_, by simp, ?_, ?_⟩
      · simp [pairing, min_eq_right h1.le, List.getLast?_cons_cons, max_eq_left hvM]
      · simp [min_eq_right h1.le]
      · simp [List.getLast?_cons_cons, max_eq_left hvM]
    · have hxv : x ≤ v := not_lt.mp h1
      have hL : (x :: (t ++ [v])).getLast? = some v := by
        rw [← List.cons_append, List.getLast?_concat]
      by_cases h2 : ((x :: t).getLast?).getD 0 < v
      · simp only [Box.calculateScoreForBlueBox, List.isEmpty_cons, List.headD_cons,
          List.getLastD_eq_getLast?, Bool.false_eq_true, if_false, h1, h2, if_true,
          if_pos, if_neg, not_false_iff, List.cons_append]
        refine ⟨?_, by simp, ?_, ?_⟩
        · simp [pairing, min_eq_left hxv, hL, max_eq_right h2.le]
        · simp [min_eq_left hxv]
        · simp [hL, max_eq_right h2.le]
      · have hvM : v ≤ ((x :: t).getLast?).getD 0 := not_lt.mp h2
        simp only [Box.calculateScoreForBlueBox, List.isEmpty_cons, List.headD_cons,
          List.getLastD_eq_getLast?, Bool.false_eq_true, if_false, h1, h2, if_neg,
          not_false_iff]
        refine ⟨?_, by simp, ?_, ?_⟩
        · simp [pairing, min_eq_left hxv, max_eq_left hvM]
        · simp [min_eq_left hxv]
        · simp [max_eq_left hvM]

lemma blue_run (ws : List ℚ) :
    ∀ b : Box, b.absorbed_weights_ ≠ [] →
      b.absorbed_weights_.headD 0 ≤ b.absorbed_weights_.getLastD 0 →
      (blueState b ws).absorbed_weights_ ≠ [] ∧
      (blueState b ws).absorbed_weights_.headD 0 =
        ws.foldl min (b.absorbed_weights_.headD 0) ∧
      (blueState b ws).absorbed_weights_.getLastD 0 =
        ws.foldl max (b.absorbed_weights_.getLastD 0) ∧
      ∀ k, k < ws.length → (blueScores b ws).getD k 0 =
        pairing ((ws.take (k + 1)).foldl min (b.absorbed_weights_.headD 0))
                ((ws.take (k + 1)).foldl max (b.absorbed_weights_.getLastD 0)) := by
  induction ws with
  | nil =>
    intro b hne hmM
    exact ⟨hne, rfl, rfl, fun k hk => by simp at hk⟩
  | cons w ws ih =>
    intro b hne hmM
    obtain ⟨hs, hne2, hhead, hlast⟩ := blue_absorb_step b w hne hmM
    have hmM2 : (b.calculateScoreForBlueBox w).2.absorbed_weights_.headD 0 ≤
        (b.calculateScoreForBlueBox w).2.absorbed_weights_.getLastD 0 := by
      rw [hhead, hlast]
      exact le_trans (min_le_left _ _) (le_trans hmM (le_max_left _ _))
    obtain ⟨ine, ihead, ilast, iscores⟩ := ih (b.calculateScoreForBlueBox w).2 hne2 hmM2
    refine ⟨ine, ?_, ?_, ?_⟩
    · rw [show blueState b (w :: ws) = blueState (b.calculateScoreForBlueBox w).2 ws from rfl,
        ihead, hhead, List.foldl_cons]
    · rw [show blueState b (w :: ws) = blueState (b.calculateScoreForBlueBox w).2 ws from rfl,
        ilast, hlast, List.foldl_cons]
    · intro k hk
      cases k with
      | zero =>
        rw [show (blueScores b (w :: ws)).getD 0 0 = (b.calculateScoreForBlueBox w).1 from rfl]
        simp [hs]
      | succ j =>
        have hj : j < ws.length := by simpa using hk
        rw [show (blueScores b (w :: ws)).getD (j + 1) 0 =
            (blueScores (b.calculateScoreForBlueBox w).2 ws).getD j 0 from rfl]
        rw [iscores j hj, hhead, hlast]
        simp [List.foldl_cons]

/-- C9: blue-box buffer invariant.  After every absorption into a fresh blue
box (i.e. after absorbing any nonempty sequence `w0 :: ws`), the internal
ordered buffer is non-empty, its first element is the minimum of all weights
absorbed so far and its last element is their maximum. -/
theorem blue_buffer_invariant (iw w0 : ℚ) (ws : List ℚ) :
    (blueState (Box.makeBlueBox iw) (w0 :: ws)).absorbed_weights_ ≠ [] ∧
    (blueState (Box.makeBlueBox iw) (w0 :: ws)).absorbed_weights_.headD 0 =
      ws.foldl min w0 ∧
    (blueState (Box.makeBlueBox iw) (w0 :: ws)).absorbed_weights_.getLastD 0 =
      ws.foldl max w0 := by
  have h1 : blueState (Box.makeBlueBox iw) (w0 :: ws) =
      blueState ⟨iw + w0, [w0]⟩ ws := by
    rw [show blueState (Box.makeBlueBox iw) (w0 :: ws) =
      blueState ((Box.makeBlueBox iw).calculateScoreForBlueBox w0).2 ws from rfl]
    rfl
  obtain ⟨hne, hhead, hlast, _⟩ :=
    blue_run ws (⟨iw + w0, [w0]⟩ : Box) (by simp) (by simp)
  rw [h1]
  exact ⟨hne, hhead, hlast⟩

/-- C2: blue-box scoring.  `pairing 0 1 = 2`; the score returned after each
absorption into a fresh blue box is the Cantor pairing of the smallest and
largest weight absorbed so far (the score at index `k` of the run over
`w0 :: ws` pairs the min and max of the first `k + 1` absorbed weights); and
absorbing a value `v` strictly between the current min and max returns the
same score as the previous absorption did. -/
theorem blue_box_scoring :
    pairing 0 1 = 2 ∧
    (∀ (iw w0 : ℚ) (ws : List ℚ) (k : ℕ), k < (w0 :: ws).length →
      (blueScores (Box.makeBlueBox iw) (w0 :: ws)).getD k 0 =
        pairing ((ws.take k).foldl min w0) ((ws.take k).foldl max w0)) ∧
    (∀ (iw w0 v : ℚ) (ws : List ℚ),
      ws.foldl min w0 < v → v < ws.foldl max w0 →
      ((blueState (Box.makeBlueBox iw) (w0 :: ws)).calculateScoreForBlueBox v).1 =
        (blueScores (Box.makeBlueBox iw) (w0 :: ws)).getD ws.length 0) := by
  have hb1 : ∀ iw w0 : ℚ, ((Box.makeBlueBox iw).calculateScoreForBlueBox w0).2 =
      (⟨iw + w0, [w0]⟩ : Box) := fun iw w0 => rfl
  have hs0 : ∀ iw w0 : ℚ, ((Box.makeBlueBox iw).calculateScoreForBlueBox w0).1 =
      pairing w0 w0 := fun iw w0 => rfl
  refine ⟨by norm_num [pairing], ?_, ?_⟩
  · intro iw w0 ws k hk
    cases k with
    | zero =>
      rw [show (blueScores (Box.makeBlueBox iw) (w0 :: ws)).getD 0 0 =
          ((Box.makeBlueBox iw).calculateScoreForBlueBox w0).1 from rfl, hs0]
      simp
    | succ j =>
      have hj : j < ws.length := by simpa using hk
      rw [show (blueScores (Box.makeBlueBox iw) (w0 :: ws)).getD (j + 1) 0 =
          (blueScores ((Box.makeBlueBox iw).calculateScoreForBlueBox w0).2 ws).getD j 0
          from rfl, hb1]
      obtain ⟨_, _, _, hscores⟩ := blue_run ws (⟨iw + w0, [w0]⟩ : Box) (by simp) (by simp)
      rw [hscores j hj]
      simp
  · intro iw w0 v ws hlo hhi
    obtain ⟨hne, hhead, hlast, hscores⟩ :=
      blue_run ws (⟨iw + w0, [w0]⟩ : Box) (by simp) (by simp)
    have hstate : blueState (Box.makeBlueBox iw) (w0 :: ws) =
        blueState (⟨iw + w0, [w0]⟩ : Box) ws := by
      rw [show blueState (Box.makeBlueBox iw) (w0 :: ws) =
        blueState ((Box.makeBlueBox iw).calculateScoreForBlueBox w0).2 ws from rfl, hb1]
    have egl : ([w0] : List ℚ).getLastD 0 = w0 := rfl
    simp only [List.headD_cons] at hhead hlast
    rw [egl] at hlast
    obtain ⟨habs, _, _, _⟩ := blue_absorb_step (blueState (⟨iw + w0, [w0]⟩ : Box) ws) v hne
      (by rw [hhead, hlast]; exact le_of_lt (lt_trans hlo hhi))
    rw [hstate, habs, hhead, hlast, min_eq_left hlo.le, max_eq_left hhi.le]
    cases ws with
    | nil => exact absurd (lt_trans hlo hhi) (lt_irrefl w0)
    | cons w1 ws1 =>
      rw [show (blueScores (Box.makeBlueBox iw) (w0 :: w1 :: ws1)).getD (w1 :: ws1).length 0 =
          (blueScores ((Box.makeBlueBox iw).calculateScoreForBlueBox w0).2
            (w1 :: ws1)).getD ws1.length 0 from rfl, hb1]
      obtain ⟨_, _, _, hscores2⟩ :=
        blue_run (w1 :: ws1) (⟨iw + w0, [w0]⟩ : Box) (by simp) (by simp)
      rw [hscores2 ws1.length (by simp)]
      have htake : (w1 :: ws1).take (ws1.length + 1) = w1 :: ws1 := by
        rw [show ws1.length + 1 = (w1 :: ws1).length from rfl, List.take_length]
      rw [htake]
      simp

/-! ### Turn selection (claim C5) -/

lemma foldl_minw_cons (bs : List Box) :
    ∀ a c : ℚ, bs.foldl (fun m b => min m b.weight_) (min a c) =
      min a (bs.foldl (fun m b => min m b.weight_) c) := by
  induction bs with
  | nil => intro a c; rfl
  | cons d bs ih =>
    intro a c
    simp only [List.foldl_cons]
    rw [min_assoc, ih]

lemma minBoxWeight_cons (b c : Box) (bs : List Box) :
    minBoxWeight (b :: c :: bs) = min b.weight_ (minBoxWeight (c :: bs)) := by
  simp only [minBoxWeight, List.foldl_cons]
  exact foldl_minw_cons bs b.weight_ c.weight_

lemma minBoxWeight_le_getD :
    ∀ (bs : List Box) (i : ℕ), i < bs.length →
      minBoxWeight bs ≤ (bs.getD i defaultBox).weight_ := by
  intro bs
  induction bs with
  | nil => intro i hi; simp at hi
  | cons b bs ih =>
    intro i hi
    cases bs with
    | nil =>
      have hi0 : i = 0 := by simpa using hi
      subst hi0
      exact le_refl _
    | cons c t =>
      rw [minBoxWeight_cons]
      cases i with
      | zero => exact min_le_left _ _
      | succ j =>
        have hj : j < (c :: t).length := by simpa using hi
        exact le_trans (min_le_right _ _) (ih j hj)

lemma minElementIdx_spec :
    ∀ bs : List Box, bs ≠ [] →
      minElementIdx bs < bs.length ∧
      (bs.getD (minElementIdx bs) defaultBox).weight_ = minBoxWeight bs ∧
      (∀ i, i < minElementIdx bs →
        minBoxWeight bs < (bs.getD i defaultBox).weight_) := by
  intro bs
  induction bs with
  | nil => intro h; exact absurd rfl h
  | cons b bs ih =>
    intro _
    cases bs with
    | nil =>
      refine ⟨by simp [minElementIdx], rfl, fun i hi => ?_⟩
      simp [minElementIdx] at hi
    | cons c t =>
      obtain ⟨iha, ihb, ihc⟩ := ih (by simp)
      rw [show minElementIdx (b :: c :: t) =
        if minBoxWeight (c :: t) < b.weight_ then minElementIdx (c :: t) + 1 else 0
        from rfl]
      by_cases h : minBoxWeight (c :: t) < b.weight_
      · rw [if_pos h]
        have hmin : minBoxWeight (b :: c :: t) = minBoxWeight (c :: t) := by
          rw [minBoxWeight_cons, min_eq_right h.le]
        refine ⟨by simpa using iha, ?_, fun i hi => ?_⟩
        · rw [List.getD_cons_succ, hmin]; exact ihb
        · rw [hmin]
          cases i with
          | zero => exact h
          | succ j =>
            rw [List.getD_cons_succ]
            exact ihc j (by omega)
      · rw [if_neg h]
        have hble : b.weight_ ≤ minBoxWeight (c :: t) := not_lt.mp h
        have hmin : minBoxWeight (b :: c :: t) = b.weight_ := by
          rw [minBoxWeight_cons, min_eq_left hble]
        exact ⟨by simp, by rw [List.getD_cons_zero, hmin], fun i hi => by omega⟩

/-- C5: turn selection is a stable first-minimum scan.  The index selected by
`takeTurn` is in range, the weight of the box there is less than or equal to
every box's weight, every box at a strictly earlier position has a strictly
larger weight (so ties break to the earliest position), and `takeTurn`
writes its update back exactly at that index. -/
theorem turn_selection (boxes : List Box) (hne : boxes ≠ []) :
    minElementIdx boxes < boxes.length ∧
    (∀ i, i < boxes.length →
      (boxes.getD (minElementIdx boxes) defaultBox).weight_ ≤
        (boxes.getD i defaultBox).weight_) ∧
    (∀ i, i < minElementIdx boxes →
      (boxes.getD (minElementIdx boxes) defaultBox).weight_ <
        (boxes.getD i defaultBox).weight_) ∧
    (∀ (p : Player) (w : ℕ),
      ∃ b2 : Box, (p.takeTurn w boxes).2 = boxes.set (minElementIdx boxes) b2) := by
  obtain ⟨ha, hb, hc⟩ := minElementIdx_spec boxes hne
  refine ⟨ha, fun i hi => ?_, fun i hi => ?_, fun p w => ?_⟩
  · rw [hb]; exact minBoxWeight_le_getD boxes i hi
  · rw [hb]; exact hc i hi
  · rw [Player.takeTurn]
    by_cases h : minElementIdx boxes = 0 ∨ minElementIdx boxes = 1
    · rw [if_pos h]; exact ⟨_, rfl⟩
    · rw [if_neg h]; exact ⟨_, rfl⟩

/-- C5 witness: the theorem applied to a concrete two-box list. -/
theorem turn_selection_witness :
    minElementIdx [(⟨1, []⟩ : Box), ⟨0, []⟩] <
      ([(⟨1, []⟩ : Box), ⟨0, []⟩] : List Box).length :=
  (turn_selection [⟨1, []⟩, ⟨0, []⟩] (by simp)).1

/-! ### Score monotonicity (claim C8) -/

lemma headD_nonneg (l : List ℚ) (h : ∀ x ∈ l, 0 ≤ x) : 0 ≤ l.headD 0 := by
  cases l with
  | nil => exact le_refl 0
  | cons x t => exact h x (List.mem_cons_self x t)

lemma getLastD_nonneg (l : List ℚ) (h : ∀ x ∈ l, 0 ≤ x) : 0 ≤ l.getLastD 0 := by
  cases l with
  | nil => exact le_refl 0
  | cons x t =>
    rw [List.getLastD_cons]
    exact h _ (List.getLastD_mem_cons t x)

lemma green_score_nonneg (b : Box) (w : ℚ) :
    0 ≤ (b.calculateScoreForGreenBox w).1 := by
  simp only [Box.calculateScoreForGreenBox]
  positivity

lemma green_mem_absorbed (b : Box) (w x : ℚ)
    (hx : x ∈ (b.calculateScoreForGreenBox w).2.absorbed_weights_) :
    x ∈ b.absorbed_weights_ ∨ x = w := by
  simp only [Box.calculateScoreForGreenBox] at hx
  by_cases h : 3 < (b.absorbed_weights_ ++ [w]).length
  · rw [if_pos h] at hx
    have := List.mem_of_mem_tail hx
    simpa using this
  · rw [if_neg h] at hx
    simpa using hx

lemma blue_mem_absorbed (b : Box) (w x : ℚ)
    (hx : x ∈ (b.calculateScoreForBlueBox w).2.absorbed_weights_) :
    x ∈ b.absorbed_weights_ ∨ x = w := by
  simp only [Box.calculateScoreForBlueBox] at hx
  by_cases h0 : b.absorbed_weights_.isEmpty
  · rw [if_pos h0] at hx
    exact Or.inr (by simpa using hx)
  · rw [if_neg h0] at hx
    by_cases h1 : w < b.absorbed_weights_.headD 0
    · rw [if_pos h1] at hx
      rcases List.mem_cons.mp hx with h | h
      · exact Or.inr h
      · exact Or.inl h
    · rw [if_neg h1] at hx
      by_cases h2 : b.absorbed_weights_.getLastD 0 < w
      · rw [if_pos h2] at hx
        simpa using hx
      · rw [if_neg h2] at hx
        exact Or.inl hx

lemma blue_score_nonneg (b : Box) (w : ℚ) (hw : 0 ≤ w)
    (hb : ∀ x ∈ b.absorbed_weights_, 0 ≤ x) :
    0 ≤ (b.calculateScoreForBlueBox w).1 := by
  have hmem : ∀ x ∈ (b.calculateScoreForBlueBox w).2.absorbed_weights_, 0 ≤ x := by
    intro x hx
    rcases blue_mem_absorbed b w x hx with h | h
    · exact hb x h
    · exact h ▸ hw
  have hs : 0 ≤ (b.calculateScoreForBlueBox w).2.absorbed_weights_.headD 0 :=
    headD_nonneg _ hmem
  have hl : 0 ≤ (b.calculateScoreForBlueBox w).2.absorbed_weights_.getLastD 0 :=
    getLastD_nonneg _ hmem
  have hval : (b.calculateScoreForBlueBox w).1 =
      ((b.calculateScoreForBlueBox w).2.absorbed_weights_.headD 0 +
        (b.calculateScoreForBlueBox w).2.absorbed_weights_.getLastD 0) *
      ((b.calculateScoreForBlueBox w).2.absorbed_weights_.headD 0 +
        (b.calculateScoreForBlueBox w).2.absorbed_weights_.getLastD 0 + 1) / 2 +
      (b.calculateScoreForBlueBox w).2.absorbed_weights_.getLastD 0 := rfl
  rw [hval]
  generalize (b.calculateScoreForBlueBox w).2.absorbed_weights_.headD 0 = s at hs ⊢
  generalize (b.calculateScoreForBlueBox w).2.absorbed_weights_.getLastD 0 = l at hl ⊢
  have hprod : 0 ≤ (s + l) * (s + l + 1) :=
    mul_nonneg (add_nonneg hs hl) (by linarith)
  linarith

lemma getD_box_nonneg (boxes : List Box) (i : ℕ)
    (hb : ∀ b ∈ boxes, ∀ x ∈ b.absorbed_weights_, 0 ≤ x) :
    ∀ x ∈ (boxes.getD i defaultBox).absorbed_weights_, 0 ≤ x := by
  intro x hx
  by_cases hi : i < boxes.length
  · have hmem : boxes.getD i defaultBox ∈ boxes := by
      rw [List.getD_eq_getElem?_getD, List.getElem?_eq_getElem hi]
      exact List.getElem_mem hi
    exact hb _ hmem x hx
  · rw [List.getD_eq_getElem?_getD, List.getElem?_eq_none (by omega)] at hx
    simp [defaultBox] at hx

lemma takeTurn_mono (p : Player) (w : ℕ) (boxes : List Box)
    (hb : ∀ b ∈ boxes, ∀ x ∈ b.absorbed_weights_, 0 ≤ x) :
    p.score_ ≤ (p.takeTurn w boxes).1.score_ ∧
    (∀ b ∈ (p.takeTurn w boxes).2, ∀ x ∈ b.absorbed_weights_, 0 ≤ x) := by
  have hbox := getD_box_nonneg boxes (minElementIdx boxes) hb
  rw [Player.takeTurn]
  by_cases h : minElementIdx boxes = 0 ∨ minElementIdx boxes = 1
  · rw [if_pos h]
    refine ⟨by simpa using green_score_nonneg _ _, fun b hmem x hx => ?_⟩
    rcases List.mem_or_eq_of_mem_set hmem with hm | hm
    · exact hb b hm x hx
    · subst hm
      rcases green_mem_absorbed _ _ x hx with hh | hh
      · exact hbox x hh
      · exact hh ▸ Nat.cast_nonneg w
  · rw [if_neg h]
    refine ⟨by simpa using
      blue_score_nonneg _ _ (Nat.cast_nonneg w) hbox, fun b hmem x hx => ?_⟩
    rcases List.mem_or_eq_of_mem_set hmem with hm | hm
    · exact hb b hm x hx
    · subst hm
      rcases blue_mem_absorbed _ _ x hx with hh | hh
      · exact hbox x hh
      · exact hh ▸ Nat.cast_nonneg w

lemma playStep_mono (s : GameState) (i w : ℕ)
    (hb : ∀ b ∈ s.boxes, ∀ x ∈ b.absorbed_weights_, 0 ≤ x) :
    s.player_A.score_ ≤ (playStep s i w).player_A.score_ ∧
    s.player_B.score_ ≤ (playStep s i w).player_B.score_ ∧
    (∀ b ∈ (playStep s i w).boxes, ∀ x ∈ b.absorbed_weights_, 0 ≤ x) := by
  rw [playStep]
  by_cases h : i % 2 = 0
  · rw [if_pos h]
    obtain ⟨h1, h2⟩ := takeTurn_mono s.player_A w s.boxes hb
    exact ⟨h1, le_refl _, h2⟩
  · rw [if_neg h]
    obtain ⟨h1, h2⟩ := takeTurn_mono s.player_B w s.boxes hb
    exact ⟨le_refl _, h1, h2⟩

lemma playLoop_mono (ws : List ℕ) :
    ∀ (i : ℕ) (s : GameState),
      (∀ b ∈ s.boxes, ∀ x ∈ b.absorbed_weights_, 0 ≤ x) →
      s.player_A.score_ ≤ (playLoop ws i s).player_A.score_ ∧
      s.player_B.score_ ≤ (playLoop ws i s).player_B.score_ ∧
      (∀ b ∈ (playLoop ws i s).boxes, ∀ x ∈ b.absorbed_weights_, 0 ≤ x) := by
  induction ws with
  | nil => intro i s hb; exact ⟨le_refl _, le_refl _, hb⟩
  | cons w ws ih =>
    intro i s hb
    obtain ⟨h1, h2, h3⟩ := playStep_mono s i w hb
    obtain ⟨h4, h5, h6⟩ := ih (i + 1) (playStep s i w) h3
    exact ⟨le_trans h1 h4, le_trans h2 h5, h6⟩

lemma playLoop_append (l1 l2 : List ℕ) :
    ∀ (i : ℕ) (s : GameState),
      playLoop (l1 ++ l2) i s = playLoop l2 (i + l1.length) (playLoop l1 i s) := by
  induction l1 with
  | nil => intro i s; simp [playLoop]
  | cons w l1 ih =>
    intro i s
    rw [List.cons_append, playLoop, playLoop, ih]
    congr 1
    simp [List.length_cons]
    omega

lemma initialState_nonneg :
    ∀ b ∈ initialState.boxes, ∀ x ∈ b.absorbed_weights_, 0 ≤ x := by
  intro b hb x hx
  simp only [initialState, Box.makeGreenBox, Box.makeBlueBox, List.mem_cons,
    List.not_mem_nil, or_false] at hb
  rcases hb with h | h | h | h <;> subst h <;> simp at hx

/-- C8: score monotonicity.  Each player's score starts at 0, the score after
processing any prefix of the input is at most the score after processing the
whole input (so scores are non-decreasing turn by turn), and both final
scores returned by `play` are non-negative. -/
theorem score_monotonic (ws : List ℕ) (n : ℕ) :
    (play (ws.take n)).1 ≤ (play ws).1 ∧
    (play (ws.take n)).2 ≤ (play ws).2 ∧
    0 ≤ (play ws).1 ∧ 0 ≤ (play ws).2 := by
  have hsplit : playLoop ws 0 initialState =
      playLoop (ws.drop n) (0 + (ws.take n).length)
        (playLoop (ws.take n) 0 initialState) := by
    rw [← playLoop_append, List.take_append_drop]
  obtain ⟨ha0, hb0, hinv⟩ := playLoop_mono (ws.take n) 0 initialState initialState_nonneg
  obtain ⟨ha1, hb1, _⟩ := playLoop_mono (ws.drop n) (0 + (ws.take n).length)
    (playLoop (ws.take n) 0 initialState) hinv
  obtain ⟨ha2, hb2, _⟩ := playLoop_mono ws 0 initialState initialState_nonneg
  refine ⟨?_, ?_, ?_, ?_⟩
  · rw [show (play (ws.take n)).1 = (playLoop (ws.take n) 0 initialState).player_A.score_
      from rfl, show (play ws).1 = (playLoop ws 0 initialState).player_A.score_ from rfl,
      hsplit]
    exact ha1
  · rw [show (play (ws.take n)).2 = (playLoop (ws.take n) 0 initialState).player_B.score_
      from rfl, show (play ws).2 = (playLoop ws 0 initialState).player_B.score_ from rfl,
      hsplit]
    exact hb1
  · exact le_trans (le_refl 0) ha2
  · exact le_trans (le_refl 0) hb2

/-! ### End-to-end scenarios (claims C3, C4, C7) -/

/-- C4: play applied to [1, 1, 2, 3] returns final scores (13.0, 25.0) for
players A and B respectively. -/
theorem play_fibonacci4 : play [1, 1, 2, 3] = (13, 25) := by
  norm_num [play, playLoop, playStep, Player.takeTurn, minElementIdx, minBoxWeight,
    Box.calculateScoreForGreenBox, Box.calculateScoreForBlueBox, initialState,
    Box.makeGreenBox, Box.makeBlueBox, defaultBox, min_def]

/-- C3: play applied to [1, 1, 2, 3, 5, 8, 13, 21] returns final scores
(155.0, 366.25) for players A and B respectively. -/
theorem play_fibonacci8 : play [1, 1, 2, 3, 5, 8, 13, 21] = (155, 366.25) := by
  norm_num [play, playLoop, playStep, Player.takeTurn, minElementIdx, minBoxWeight,
    Box.calculateScoreForGreenBox, Box.calculateScoreForBlueBox, initialState,
    Box.makeGreenBox, Box.makeBlueBox, defaultBox, min_def]

/-- C7: play applied to the empty input sequence takes zero turns (the loop
returns the initial state unchanged) and returns final scores (0.0, 0.0). -/
theorem play_empty : play [] = (0, 0) ∧ playLoop [] 0 initialState = initialState := by
  constructor
  · norm_num [play, playLoop, initialState]
  · rfl

/-! ### Weight growth on absorption (claim C6) -/

/-- C6 counterexample: the claim asserts a strict weight increase for every
absorption, explicitly including a token of weight 0; but absorbing 0 leaves
the box weight unchanged (for both scoring variants), and with input 0 the
box selected by a turn of `play` is still the box at index 0 afterwards, so
selection order can stay static across turns of equal-valued inputs. -/
theorem absorb_zero_weight_static :
    ¬ (Box.makeGreenBox 0).weight_ <
        ((Box.makeGreenBox 0).calculateScoreForGreenBox 0).2.weight_ ∧
    ¬ (Box.makeBlueBox 0).weight_ <
        ((Box.makeBlueBox 0).calculateScoreForBlueBox 0).2.weight_ ∧
    minElementIdx (playStep initialState 0 0).boxes = 0 ∧
    minElementIdx initialState.boxes = 0 := by
  refine ⟨?_, ?_, ?_, ?_⟩
  · norm_num [Box.makeGreenBox, Box.calculateScoreForGreenBox]
  · norm_num [Box.makeBlueBox, Box.calculateScoreForBlueBox]
  · norm_num [playStep, Player.takeTurn, minElementIdx, minBoxWeight,
      Box.calculateScoreForGreenBox, initialState, Box.makeGreenBox,
      Box.makeBlueBox, defaultBox, min_def]
  · norm_num [minElementIdx, minBoxWeight, initialState, Box.makeGreenBox,
      Box.makeBlueBox, min_def]

/-- C6 (amended): every absorption increases the box weight by exactly the
absorbed token weight, for both scoring variants; in particular the increase
is strict whenever the token weight is positive (but not for a token of
weight 0). -/
theorem absorb_weight_increase (b : Box) (w : ℚ) :
    (b.calculateScoreForGreenBox w).2.weight_ = b.weight_ + w ∧
    (b.calculateScoreForBlueBox w).2.weight_ = b.weight_ + w ∧
    (0 < w → b.weight_ < (b.calculateScoreForGreenBox w).2.weight_) ∧
    (0 < w → b.weight_ < (b.calculateScoreForBlueBox w).2.weight_) := by
  refine ⟨rfl, rfl, fun hw => ?_, fun hw => ?_⟩ <;>
    simp [Box.calculateScoreForGreenBox, Box.calculateScoreForBlueBox] <;> linarith

/-! ### Box construction and variant dispatch (claim C10) -/

/-- C10: `makeGreenBox` and `makeBlueBox` construct identical Box objects
(same weight, same empty history, no variant tag), and `Player::takeTurn`
coincides with the positional-dispatch description `takeTurnPositionalSpec`:
green scoring is applied exactly when the selected first-minimum index is 0
or 1, blue scoring otherwise. -/
theorem make_boxes_identical_positional_dispatch :
    (∀ w : ℚ, Box.makeGreenBox w = Box.makeBlueBox w) ∧
    (∀ (p : Player) (w : ℕ) (boxes : List Box),
      p.takeTurn w boxes = takeTurnPositionalSpec p w boxes) := by
  refine ⟨fun w => rfl, fun p w boxes => ?_⟩
  unfold Player.takeTurn takeTurnPositionalSpec
  rcases Nat.lt_or_ge (minElementIdx boxes) 2 with h | h
  · interval_cases h : minElementIdx boxes <;> simp [h]
  · have h0 : ¬ (minElementIdx boxes = 0 ∨ minElementIdx boxes = 1) := by omega
    have h1 : ¬ minElementIdx boxes ≤ 1 := by omega
    simp only [h0, h1, if_neg, not_false_iff]
